import Mathlib

/-!
Verification development for the tikzgif compilation engine.

The Python source is shallowly embedded:
  * floats are modelled as exact rationals (`ℚ`);
  * Python `int` is `ℤ`;
  * `round` is round-half-to-even, as in Python 3;
  * the file system and external processes are modelled by explicit state
    or by oracle functions passed as parameters.
-/

namespace Tikzgif

/-- Python 3 `round` on a rational: nearest integer, ties to even.
Modelled from builtins: `round(x)` with one argument. -/
def pyRound (x : ℚ) : ℤ :=
  if x - (⌊x⌋ : ℚ) < 1/2 then ⌊x⌋
  else if 1/2 < x - (⌊x⌋ : ℚ) then ⌊x⌋ + 1
  else if ⌊x⌋ % 2 = 0 then ⌊x⌋ else ⌊x⌋ + 1

/-- Embeds `tikzgif.types.BoundingBox` (an axis-aligned rectangle with
float coordinates, here rationals). -/
structure BoundingBox where
  x_min : ℚ
  y_min : ℚ
  x_max : ℚ
  y_max : ℚ
deriving DecidableEq, Repr

/-- Embeds `BoundingBox.width`. -/
def BoundingBox.width (b : BoundingBox) : ℚ := b.x_max - b.x_min

/-- Embeds `BoundingBox.height`. -/
def BoundingBox.height (b : BoundingBox) : ℚ := b.y_max - b.y_min

/-- Embeds `BoundingBox.union`: componentwise min/max. -/
def BoundingBox.union (b o : BoundingBox) : BoundingBox :=
  { x_min := min b.x_min o.x_min
    y_min := min b.y_min o.y_min
    x_max := max b.x_max o.x_max
    y_max := max b.y_max o.y_max }

/-- Embeds `BoundingBox.padded`. -/
def BoundingBox.padded (b : BoundingBox) (padding_bp : ℚ) : BoundingBox :=
  { x_min := b.x_min - padding_bp
    y_min := b.y_min - padding_bp
    x_max := b.x_max + padding_bp
    y_max := b.y_max + padding_bp }

/-- Embeds `tikzgif.bbox.compute_envelope`.  The Python function raises
`ValueError` on an empty list; this is modelled with `Option`. -/
def compute_envelope (bboxes : List BoundingBox) : Option BoundingBox :=
  match bboxes with
  | [] => none
  | b :: rest => some (rest.foldl BoundingBox.union b)

/-- A Python `set.add` on a list carrying distinct elements: insert if absent. -/
def setAdd (l : List ℤ) (x : ℤ) : List ℤ := if x ∈ l then l else x :: l

/-- Embeds `tikzgif.bbox.select_probe_indices`.  The Python `set` of indices
is modelled as a duplicate-free list built by `setAdd`, and `sorted` as an
insertion sort.  Float division inside `step` is modelled as exact rational
division (`round` applied to it is Python's round-half-even). -/
def select_probe_indices (total_frames : ℤ) (max_probes : ℤ) : List ℤ :=
  if total_frames ≤ 0 then []
  else if total_frames ≤ max_probes then
    (List.range total_frames.toNat).map Int.ofNat
  else
    let remaining : ℤ := max_probes - 2
    let base : List ℤ := setAdd (setAdd [] 0) (total_frames - 1)
    let step : ℚ := ((total_frames : ℚ) - 1) / ((remaining : ℚ) + 1)
    let indices : List ℤ :=
      if 0 < remaining then
        ((List.range remaining.toNat).map
            (fun k : ℕ => pyRound (((k : ℚ) + 1) * step))).foldl setAdd base
      else base
    indices.insertionSort (· ≤ ·)

section PyRoundLemmas

lemma le_pyRound (x : ℚ) : x - 1/2 ≤ (pyRound x : ℚ) := by
  have h1 : ((⌊x⌋ : ℤ) : ℚ) ≤ x := Int.floor_le x
  have h2 : x < (⌊x⌋ : ℚ) + 1 := Int.lt_floor_add_one x
  unfold pyRound
  split_ifs <;> push_cast <;> linarith

lemma pyRound_le (x : ℚ) : (pyRound x : ℚ) ≤ x + 1/2 := by
  have h1 : ((⌊x⌋ : ℤ) : ℚ) ≤ x := Int.floor_le x
  have h2 : x < (⌊x⌋ : ℚ) + 1 := Int.lt_floor_add_one x
  unfold pyRound
  split_ifs with hlt hgt <;> push_cast <;> linarith

lemma pyRound_lt_pyRound {x y : ℚ} (h : x + 1 < y) : pyRound x < pyRound y := by
  have h1 := pyRound_le x
  have h2 := le_pyRound y
  have : (pyRound x : ℚ) < (pyRound y : ℚ) := by linarith
  exact_mod_cast this

lemma one_le_pyRound {x : ℚ} (h : 1 < x) : 1 ≤ pyRound x := by
  have h1 := le_pyRound x
  have : (0 : ℚ) < (pyRound x : ℚ) := by linarith
  have h2 : (0 : ℤ) < pyRound x := by exact_mod_cast this
  omega

lemma pyRound_lt_int {x : ℚ} {m : ℤ} (h : x + 1/2 < (m : ℚ)) : pyRound x < m := by
  have h1 := pyRound_le x
  have : (pyRound x : ℚ) < (m : ℚ) := by linarith
  exact_mod_cast this

end PyRoundLemmas

section SetAddLemmas

lemma mem_setAdd {l : List ℤ} {x y : ℤ} : y ∈ setAdd l x ↔ y ∈ l ∨ y = x := by
  unfold setAdd
  split_ifs with hx
  · constructor
    · intro h; exact Or.inl h
    · rintro (h | rfl) <;> assumption
  · simp [or_comm]

lemma length_setAdd_of_not_mem {l : List ℤ} {x : ℤ} (h : x ∉ l) :
    (setAdd l x).length = l.length + 1 := by
  unfold setAdd
  simp [h]

lemma mem_foldl_setAdd (xs : List ℤ) (acc : List ℤ) (y : ℤ) :
    y ∈ xs.foldl setAdd acc ↔ y ∈ acc ∨ y ∈ xs := by
  induction xs generalizing acc with
  | nil => simp
  | cons x xs ih =>
    simp only [List.foldl_cons, ih, mem_setAdd, List.mem_cons]
    tauto

lemma length_foldl_setAdd (xs : List ℤ) (acc : List ℤ)
    (hnd : xs.Nodup) (hdis : ∀ x ∈ xs, x ∉ acc) :
    (xs.foldl setAdd acc).length = acc.length + xs.length := by
  induction xs generalizing acc with
  | nil => simp
  | cons x xs ih =>
    have hx : x ∉ acc := hdis x (List.mem_cons_self x xs)
    have hnd' : xs.Nodup := (List.nodup_cons.mp hnd).2
    have hxnot : x ∉ xs := (List.nodup_cons.mp hnd).1
    have hdis' : ∀ y ∈ xs, y ∉ setAdd acc x := by
      intro y hy
      rw [mem_setAdd]
      rintro (h | rfl)
      · exact hdis y (List.mem_cons_of_mem x hy) h
      · exact hxnot hy
    rw [List.foldl_cons, ih (setAdd acc x) hnd' hdis', length_setAdd_of_not_mem hx,
      List.length_cons]
    omega

end SetAddLemmas

/-- C4: `BoundingBox.union` is associative and commutative, and
`compute_envelope` applied to a single-box list returns that box. -/
theorem bounding_box_union_algebra (a b c : BoundingBox) :
    (a.union b).union c = a.union (b.union c)
    ∧ a.union b = b.union a
    ∧ compute_envelope [a] = some a := by
  refine ⟨?_, ?_, rfl⟩
  · simp [BoundingBox.union, min_assoc, max_assoc]
  · simp [BoundingBox.union, min_comm, max_comm]

lemma select_probe_indices_main (n cap : ℤ) (hcap : 2 ≤ cap) (hcn : cap < n) :
    0 ∈ select_probe_indices n cap
    ∧ (n - 1) ∈ select_probe_indices n cap
    ∧ (select_probe_indices n cap).length = cap.toNat := by
  have hn3 : 3 ≤ n := by omega
  unfold select_probe_indices
  rw [if_neg (by omega), if_neg (by omega)]
  dsimp only
  have hbase : setAdd (setAdd ([] : List ℤ) 0) (n - 1) = [n - 1, 0] := by
    have h1 : setAdd ([] : List ℤ) 0 = [0] := by simp [setAdd]
    rw [h1]
    unfold setAdd
    rw [if_neg (by simp; omega)]
  rw [hbase]
  set step : ℚ := ((n : ℚ) - 1) / (((cap - 2 : ℤ) : ℚ) + 1) with hstep_def
  have hden : (((cap - 2 : ℤ) : ℚ) + 1) = (cap : ℚ) - 1 := by push_cast; ring
  have hden_pos : (0 : ℚ) < (cap : ℚ) - 1 := by
    have : (2 : ℚ) ≤ (cap : ℚ) := by exact_mod_cast hcap
    linarith
  have hstep_gt1 : 1 < step := by
    rw [hstep_def, hden, one_lt_div hden_pos]
    have : (cap : ℚ) < (n : ℚ) := by exact_mod_cast hcn
    linarith
  have hstep_pos : 0 < step := by linarith
  have hprod : ((cap : ℚ) - 1) * step = (n : ℚ) - 1 := by
    rw [hstep_def, hden]
    field_simp
  by_cases hr : (0 : ℤ) < cap - 2
  · rw [if_pos hr]
    set F : List ℤ :=
      (List.range (cap - 2).toNat).map (fun k : ℕ => pyRound (((k : ℚ) + 1) * step))
      with hF_def
    have hbounds : ∀ v ∈ F, 1 ≤ v ∧ v ≤ n - 2 := by
      intro v hv
      rcases List.mem_map.mp hv with ⟨k, hk, rfl⟩
      have hklt : (k : ℤ) < cap - 2 := by
        have := List.mem_range.mp hk
        omega
      have hk1 : (1 : ℚ) ≤ (k : ℚ) + 1 := by
        have : (0 : ℚ) ≤ (k : ℚ) := Nat.cast_nonneg k
        linarith
      have hx_gt1 : (1 : ℚ) < ((k : ℚ) + 1) * step := by nlinarith
      constructor
      · exact one_le_pyRound hx_gt1
      · have hkq : (k : ℚ) + 1 ≤ (cap : ℚ) - 2 := by
          have h2 : (k : ℤ) + 1 ≤ cap - 2 := by omega
          exact_mod_cast h2
        have hx_le : ((k : ℚ) + 1) * step ≤ ((cap : ℚ) - 2) * step := by nlinarith
        have hring : ((cap : ℚ) - 2) * step = ((cap : ℚ) - 1) * step - step := by ring
        have hlt : ((k : ℚ) + 1) * step + 1/2 < ((n - 1 : ℤ) : ℚ) := by
          push_cast
          linarith [hprod, hstep_gt1, hx_le, hring]
        have := pyRound_lt_int hlt
        omega
    have hpw : F.Pairwise (· < ·) := by
      rw [hF_def, List.pairwise_map]
      refine (List.pairwise_lt_range _).imp ?_
      intro a b hab
      apply pyRound_lt_pyRound
      have hab' : (1 : ℚ) ≤ (b : ℚ) - (a : ℚ) := by
        have h2 : a + 1 ≤ b := hab
        have h3 : (a : ℚ) + 1 ≤ (b : ℚ) := by exact_mod_cast h2
        linarith
      have hmul : step ≤ ((b : ℚ) - (a : ℚ)) * step :=
        le_mul_of_one_le_left (le_of_lt hstep_pos) hab'
      nlinarith
    have hnodup : F.Nodup := hpw.imp fun h => ne_of_lt h
    have hdis : ∀ v ∈ F, v ∉ ([n - 1, 0] : List ℤ) := by
      intro v hv hmem
      have := hbounds v hv
      rcases List.mem_cons.mp hmem with h | h
      · omega
      · rcases List.mem_singleton.mp h with rfl
        omega
    have hperm := List.perm_insertionSort (· ≤ ·) (F.foldl setAdd [n - 1, 0])
    refine ⟨?_, ?_, ?_⟩
    · rw [hperm.mem_iff, mem_foldl_setAdd]
      left
      simp
    · rw [hperm.mem_iff, mem_foldl_setAdd]
      left
      simp
    · rw [hperm.length_eq, length_foldl_setAdd F [n - 1, 0] hnodup hdis]
      have hFlen : F.length = (cap - 2).toNat := by
        rw [hF_def, List.length_map, List.length_range]
      rw [hFlen]
      simp only [List.length_cons, List.length_nil]
      omega
  · rw [if_neg hr]
    have hperm := List.perm_insertionSort (· ≤ ·) ([n - 1, 0] : List ℤ)
    refine ⟨?_, ?_, ?_⟩
    · rw [hperm.mem_iff]; simp
    · rw [hperm.mem_iff]; simp
    · rw [hperm.length_eq]
      simp only [List.length_cons, List.length_nil]
      omega

/-- C2 (amended: `max_probes ≥ 2`): `select_probe_indices n cap` is `[]`
for `n = 0`, is `range n` for `n ≤ cap`, contains `0` and `n - 1` when
`n > cap`, and always has exactly `min n cap` elements. -/
theorem select_probe_indices_spec (n cap : ℤ) (hn : 0 ≤ n) (hcap : 2 ≤ cap) :
    (n = 0 → select_probe_indices n cap = [])
    ∧ (n ≤ cap → select_probe_indices n cap = (List.range n.toNat).map Int.ofNat)
    ∧ (cap < n → 0 ∈ select_probe_indices n cap ∧ (n - 1) ∈ select_probe_indices n cap)
    ∧ (select_probe_indices n cap).length = (min n cap).toNat := by
  by_cases hc : cap < n
  · obtain ⟨h0, h1, hlen⟩ := select_probe_indices_main n cap hcap hc
    refine ⟨fun h => absurd h (by omega), fun h => absurd h (by omega),
      fun _ => ⟨h0, h1⟩, ?_⟩
    rw [hlen]
    omega
  · push_neg at hc
    have heq : select_probe_indices n cap = (List.range n.toNat).map Int.ofNat := by
      unfold select_probe_indices
      split_ifs with h0
      · have : n = 0 := by omega
        subst this
        rfl
      · rfl
    refine ⟨fun h => ?_, fun _ => heq, fun h => absurd h (by omega), ?_⟩
    · subst h
      rw [heq]
      rfl
    · rw [heq]
      simp only [List.length_map, List.length_range]
      omega

/-- C2 counterexample: with `max_probes = 1` and two frames the code
returns `[0, 1]`, which has 2 elements, not `min 2 1 = 1`. -/
theorem select_probe_indices_cap_one_counterexample :
    ¬ ((select_probe_indices 2 1).length = ((min (2 : ℤ) 1).toNat)) := by
  decide

/-- C2 witness: the amended claim instantiated at 100 frames, cap 10. -/
theorem select_probe_indices_spec_witness :
    (0 : ℤ) ≤ 100 ∧ (2 : ℤ) ≤ 10
    ∧ ((100 : ℤ) = 0 → select_probe_indices 100 10 = [])
    ∧ ((100 : ℤ) ≤ 10 → select_probe_indices 100 10 = (List.range (100 : ℤ).toNat).map Int.ofNat)
    ∧ ((10 : ℤ) < 100 → 0 ∈ select_probe_indices 100 10
        ∧ ((100 : ℤ) - 1) ∈ select_probe_indices 100 10)
    ∧ (select_probe_indices 100 10).length = (min (100 : ℤ) 10).toNat :=
  ⟨by decide, by decide, (select_probe_indices_spec 100 10 (by decide) (by decide)).1,
    (select_probe_indices_spec 100 10 (by decide) (by decide)).2.1,
    (select_probe_indices_spec 100 10 (by decide) (by decide)).2.2.1,
    (select_probe_indices_spec 100 10 (by decide) (by decide)).2.2.2⟩

/-! Embedding of `tikzgif.tex_gen`.  Python strings are Lean `String`s;
character-level scanning is done on `String.data` (a `List Char`), which
matches Python's per-character indexing and slicing. -/

/-- Pure external functions of the Python runtime that the generator
calls: `hashlib.sha256(...).hexdigest()` and `str(float)`.  Both are
deterministic pure functions of their input; their internal algorithms
are irrelevant to every claim, so they are abstracted as parameters. -/
structure PyFuns where
  sha256hex : String → String
  reprFloat : ℚ → String

/-- Embeds `tikzgif.tex_gen.ParsedTemplate` (the Python `set` of packages
is a list; no claim depends on its order). -/
structure ParsedTemplate where
  original_source : String
  preamble_lines : List String
  body_lines : List String
  postamble_lines : List String
  document_class : String
  class_options : List String
  detected_packages : List String
  needs_shell_escape : Bool
  has_bounding_box : Bool
  param_token : String
deriving DecidableEq, Repr

/-- Embeds `tikzgif.types.FrameSpec`. -/
structure FrameSpec where
  index : ℤ
  param_value : ℚ
  param_name : String
  tex_content : String
  content_hash : String
deriving DecidableEq, Repr

/-- Python whitespace class for the regex `\s` (ASCII part; the templates
contain only ASCII whitespace). -/
def isPyWs (c : Char) : Bool :=
  c = ' ' ∨ c = '\t' ∨ c = '\n' ∨ c = '\r' ∨ c = '\x0b' ∨ c = '\x0c'

/-- Python `str.replace(old, new)` on char lists, for a non-empty `old`
(every parameter token in the pipeline is non-empty): replaces all
non-overlapping occurrences left to right.  The fuel argument (always
instantiated with the text length, which bounds the recursion depth)
makes the recursion structural so that the function evaluates by kernel
reduction. -/
def replaceAllFuel (fuel : ℕ) (tok w : List Char) (s : List Char) : List Char :=
  match fuel, s with
  | 0, _ => []
  | _, [] => []
  | fuel + 1, c :: rest =>
    if tok ≠ [] ∧ tok.isPrefixOf (c :: rest) then
      w ++ replaceAllFuel fuel tok w ((c :: rest).drop tok.length)
    else
      c :: replaceAllFuel fuel tok w rest

/-- Python `str.replace(old, new)` on char lists. -/
def replaceAll (tok w : List Char) (s : List Char) : List Char :=
  replaceAllFuel s.length tok w s

/-- Python `str.replace` lifted to `String`. -/
def pyReplace (s old new : String) : String :=
  ⟨replaceAll old.data new.data s.data⟩

/-- Python `"".join(lines)`. -/
def joinStr (lines : List String) : String := String.join lines

/-- Python `s.rstrip("\n")`. -/
def rstripNewlines (s : String) : String :=
  ⟨(s.data.reverse.dropWhile (fun c => c = '\n')).reverse⟩

/-- Match of the tail of `_RE_DOCUMENTCLASS` (after the literal
`\documentclass`): optional `\s*\[[^\]]*\]`, then `\s*\{[^}]+\}`.
The regex cannot backtrack out of the optional group once `\s*\[` has
matched, because `[` is not whitespace and not `{`. -/
def docclassTail (l : List Char) : Bool :=
  let l1 := l.dropWhile isPyWs
  match l1 with
  | '[' :: r =>
    let opts := r.takeWhile (fun c => ¬ c = ']')
    let r2 := r.drop opts.length
    match r2 with
    | ']' :: r3 =>
      let r4 := r3.dropWhile isPyWs
      match r4 with
      | '{' :: r5 =>
        let cls := r5.takeWhile (fun c => ¬ c = '}')
        decide (cls ≠ []) && (r5.drop cls.length).head? = some '}'
      | _ => false
    | _ => false
  | '{' :: r5 =>
    let cls := r5.takeWhile (fun c => ¬ c = '}')
    decide (cls ≠ []) && (r5.drop cls.length).head? = some '}'
  | _ => false

/-- Search of `_RE_DOCUMENTCLASS` in a line, as a Boolean: does the
pattern match anywhere in the text? -/
def containsDocclass (l : List Char) : Bool :=
  match l with
  | [] => false
  | _ :: rest =>
    (("\\documentclass".data).isPrefixOf l && docclassTail (l.drop 14))
    || containsDocclass rest

/-- Match attempt of `(\\begin\s*\{tikzpicture\}[^\n]*\n)` at one position
`p` (an offset into the whole body); returns the match-end offset.  The
greedy `[^\n]*` must be followed by a newline, so the match extends to and
including the first newline. -/
def tikzAt (l : List Char) (p : ℕ) : Option ℕ :=
  if ("\\begin".data).isPrefixOf l then
    let r1 := l.drop 6
    let ws := r1.takeWhile isPyWs
    let r2 := r1.drop ws.length
    if ("{tikzpicture}".data).isPrefixOf r2 then
      let r3 := r2.drop 13
      let line := r3.takeWhile (fun c => ¬ c = '\n')
      if line.length < r3.length then
        some (p + 6 + ws.length + 13 + line.length + 1)
      else none
    else none
  else none

/-- Search (`pattern.search(body)`) for the `tikzpicture` opening-line
regex: scan every start position left to right, return the first match
end. -/
def searchTikzEnd (l : List Char) (p : ℕ) : Option ℕ :=
  match l with
  | [] => none
  | _ :: rest =>
    match tikzAt l p with
    | some e => some e
    | none => searchTikzEnd rest (p + 1)

/-- Embeds `BoundingBox.to_tikz_clip` (float rendering `str(float)` is the
abstract `reprFloat`). -/
def to_tikz_clip (F : PyFuns) (b : BoundingBox) : String :=
  "\\useasboundingbox (" ++ F.reprFloat b.x_min ++ "bp, " ++ F.reprFloat b.y_min
    ++ "bp) rectangle (" ++ F.reprFloat b.x_max ++ "bp, " ++ F.reprFloat b.y_max ++ "bp);"

/-! The canonical numeric form `f"{value:g}"` (C `%g` with precision 6),
modelled from the Python format-spec documentation over the exact
rational value: round to 6 significant digits, use fixed notation when
the decimal exponent is in `[-4, 6)` and scientific notation otherwise,
then strip trailing zeros of the fractional part and a bare decimal
point.  All arithmetic is on the numerator/denominator so that the
function evaluates by kernel reduction. -/

/-- Decimal digit count of a natural number (0 has zero digits), with
explicit fuel so the definition is structural. -/
def numDigitsAux : ℕ → ℕ → ℕ
  | 0, _ => 0
  | fuel + 1, n => if n = 0 then 0 else numDigitsAux fuel (n / 10) + 1

/-- Decimal digit count. -/
def numDigits (n : ℕ) : ℕ := numDigitsAux n n

/-- Render one decimal digit. -/
def digitChar : ℕ → Char
  | 0 => '0'
  | 1 => '1'
  | 2 => '2'
  | 3 => '3'
  | 4 => '4'
  | 5 => '5'
  | 6 => '6'
  | 7 => '7'
  | 8 => '8'
  | 9 => '9'
  | _ => 'X'

/-- The `k` low decimal digits of `m`, most significant first, zero
padded (for `m < 10 ^ k` this is the fixed-width decimal form of `m`). -/
def natDigitsFixed : ℕ → ℕ → List ℕ
  | 0, _ => []
  | k + 1, m => natDigitsFixed k (m / 10) ++ [m % 10]

/-- Strip trailing zero digits (the `%g` trailing-zero strip). -/
def dropTrailingZeros (l : List ℕ) : List ℕ :=
  (l.reverse.dropWhile (fun d => d = 0)).reverse

/-- Assemble a sign, integer digits and fractional digits into the final
mantissa text; the fractional part is stripped of trailing zeros and the
decimal point is dropped when nothing follows it. -/
def buildMantissa (sign : List Char) (intDigits fracDigits : List ℕ) : List Char :=
  let fracS := dropTrailingZeros fracDigits
  sign ++ intDigits.map digitChar
    ++ (if fracS.isEmpty then [] else '.' :: fracS.map digitChar)

/-- Scientific-notation exponent suffix `e±XX` (at least two digits). -/
def expSuffix (e : ℤ) : List Char :=
  let sgn : Char := if e < 0 then '-' else '+'
  let mag := e.natAbs
  'e' :: sgn :: (natDigitsFixed (max 2 (numDigits mag)) mag).map digitChar

/-- Round `a / b` (both positive) to 6 significant decimal digits with
ties to even; returns the digit block `m` (`10^5 ≤ m < 10^6`) and the
decimal exponent. -/
def gRound6 (a b : ℕ) : ℕ × ℤ :=
  let e0 : ℤ := (numDigits a : ℤ) - (numDigits b : ℤ)
  let ge : Bool := if 0 ≤ e0 then b * 10 ^ e0.toNat ≤ a else b ≤ a * 10 ^ (-e0).toNat
  let e1 : ℤ := if ge then e0 else e0 - 1
  let N := if e1 ≤ 5 then a * 10 ^ (5 - e1).toNat else a
  let D := if e1 ≤ 5 then b else b * 10 ^ (e1 - 5).toNat
  let m0 := N / D
  let r := N % D
  let m1 := if 2 * r < D then m0 else if D < 2 * r then m0 + 1
            else if m0 % 2 = 0 then m0 else m0 + 1
  if m1 = 10 ^ 6 then (10 ^ 5, e1 + 1) else (m1, e1)

/-- Mantissa and exponent suffix of `%g` applied to the rational
`num / den` (`den ≠ 0`). -/
def gParts (num : ℤ) (den : ℕ) : List Char × List Char :=
  if num = 0 then (['0'], [])
  else
    let sign : List Char := if num < 0 then ['-'] else []
    let me := gRound6 num.natAbs den
    let e : ℤ := me.2
    let ds := natDigitsFixed 6 me.1
    if -4 ≤ e ∧ e < 6 then
      if 0 ≤ e then
        (buildMantissa sign (ds.take (e.toNat + 1)) (ds.drop (e.toNat + 1)), [])
      else
        (buildMantissa sign [0] (List.replicate (-(e + 1)).toNat 0 ++ ds), [])
    else
      (buildMantissa sign (ds.take 1) (ds.drop 1), expSuffix e)

/-- Embeds `f"{param_value:g}"`. -/
def formatG (q : ℚ) : String :=
  ⟨(gParts q.num q.den).1 ++ (gParts q.num q.den).2⟩

/-- The `skipped_docclass` loop of `_build_standalone_preamble`: drop the
first line on which the `\documentclass` pattern matches. -/
def dropFirstDocclass : List String → List String
  | [] => []
  | l :: ls => if containsDocclass l.data then ls else l :: dropFirstDocclass ls

/-- Embeds `tikzgif.tex_gen._build_standalone_preamble`: replace the
original document class with `standalone` (keeping user options, forcing
`tikz` first and a default border), copy every other preamble line, then
append the extra preamble. -/
def build_standalone_preamble (parsed : ParsedTemplate) (extra_preamble : String) : String :=
  let user_opts := parsed.class_options.filter (fun o => o ≠ "tikz")
  let opts := "tikz" :: user_opts
  let opts2 := if opts.any (fun o => o.startsWith "border") then opts else opts ++ ["border=2pt"]
  let opts_str := String.intercalate ", " opts2
  let firstLine := "\\documentclass[" ++ opts_str ++ "]{standalone}\n"
  let rest := dropFirstDocclass parsed.preamble_lines
  let extra := if extra_preamble ≠ "" then [rstripNewlines extra_preamble ++ "\n"] else []
  joinStr (firstLine :: (rest ++ extra))

/-- Embeds `tikzgif.tex_gen._build_frame_body`: substitute the parameter
token with the `%g` form of the value, then, when a bounding box is
enforced and the template has none, inject the `\useasboundingbox`
command right after the first `\begin{tikzpicture}...` line (if any). -/
def build_frame_body (F : PyFuns) (parsed : ParsedTemplate) (param_value : ℚ)
    (enforced_bbox : Option BoundingBox) : String :=
  let body0 := joinStr parsed.body_lines
  let body := pyReplace body0 parsed.param_token (formatG param_value)
  match enforced_bbox with
  | none => body
  | some box =>
    if parsed.has_bounding_box then body
    else
      let bbox_cmd := "  " ++ to_tikz_clip F box ++ "\n"
      match searchTikzEnd body.data 0 with
      | none => body
      | some insert_pos =>
        ⟨body.data.take insert_pos ++ bbox_cmd.data ++ body.data.drop insert_pos⟩

/-- Embeds `tikzgif.tex_gen.generate_frame_specs` (`hashlib.sha256` is
the abstract `F.sha256hex`). -/
def generate_frame_specs (F : PyFuns) (parsed : ParsedTemplate) (param_values : List ℚ)
    (enforced_bbox : Option BoundingBox) (extra_preamble : String) : List FrameSpec :=
  let preamble := build_standalone_preamble parsed extra_preamble
  param_values.enum.map (fun p =>
    let body := build_frame_body F parsed p.2 enforced_bbox
    let full_source := preamble ++ "\\begin{document}\n" ++ body ++ "\\end{document}\n"
    { index := (p.1 : ℤ)
      param_value := p.2
      param_name := parsed.param_token
      tex_content := full_source
      content_hash := F.sha256hex full_source })

/-- Decidable statement of the canonical-form property claimed of the
substituted numeric text: it never ends in a decimal point, and when it
contains a decimal point it does not end in a zero (trailing zeros and a
trailing point are stripped). -/
def canonicalTail (l : List Char) : Bool :=
  decide (l.getLast? ≠ some '.')
    && (decide ('.' ∉ l) || decide (l.getLast? ≠ some '0'))

lemma canonicalTail_eq_true {l : List Char}
    (h1 : l.getLast? ≠ some '.')
    (h2 : '.' ∉ l ∨ l.getLast? ≠ some '0') :
    canonicalTail l = true := by
  unfold canonicalTail
  rcases h2 with h2 | h2 <;> simp [h1, h2]

lemma digitChar_ne_dot (d : ℕ) : digitChar d ≠ '.' := by
  unfold digitChar
  split <;> decide

lemma digitChar_ne_zero {d : ℕ} (h : d ≠ 0) : digitChar d ≠ '0' := by
  unfold digitChar
  split <;> first | (exact absurd rfl h) | decide

lemma head?_dropWhile_false {α : Type} (p : α → Bool) (l : List α) (a : α)
    (h : (l.dropWhile p).head? = some a) : p a = false := by
  induction l with
  | nil => simp [List.dropWhile] at h
  | cons x xs ih =>
    rw [List.dropWhile_cons] at h
    by_cases hp : p x
    · rw [if_pos hp] at h
      exact ih h
    · rw [if_neg hp] at h
      simp only [List.head?_cons, Option.some.injEq] at h
      subst h
      exact Bool.eq_false_iff.mpr hp

lemma getLast?_map {α β : Type} (f : α → β) (l : List α) :
    (l.map f).getLast? = l.getLast?.map f := by
  induction l with
  | nil => rfl
  | cons x xs ih =>
    cases xs with
    | nil => rfl
    | cons y ys =>
      simpa [List.getLast?_cons_cons] using ih

lemma dropTrailingZeros_getLast? {l : List ℕ} {d : ℕ}
    (h : (dropTrailingZeros l).getLast? = some d) : d ≠ 0 := by
  unfold dropTrailingZeros at h
  rw [List.getLast?_reverse] at h
  have := head?_dropWhile_false (fun x => x = 0) l.reverse d h
  simpa using this

lemma exists_getLast?_of_ne_nil {α : Type} {l : List α} (h : l ≠ []) :
    ∃ a, l.getLast? = some a := by
  cases l with
  | nil => exact absurd rfl h
  | cons x xs => exact ⟨(x :: xs).getLast (by simp), List.getLast?_eq_getLast _ _⟩

lemma canonicalTail_buildMantissa (sign : List Char) (intD fracD : List ℕ)
    (hs : sign = [] ∨ sign = ['-']) (hi : intD ≠ []) :
    canonicalTail (buildMantissa sign intD fracD) = true := by
  unfold buildMantissa
  dsimp only
  by_cases hf : (dropTrailingZeros fracD).isEmpty
  · rw [if_pos hf, List.append_nil]
    have hmapne : intD.map digitChar ≠ [] := by simpa using hi
    obtain ⟨d, hd⟩ : ∃ d, intD.getLast? = some d := exists_getLast?_of_ne_nil hi
    apply canonicalTail_eq_true
    · rw [List.getLast?_append_of_ne_nil sign hmapne, getLast?_map, hd]
      intro hcontra
      exact digitChar_ne_dot d (by simpa using hcontra)
    · left
      intro hmem
      rcases List.mem_append.mp hmem with h | h
      · rcases hs with rfl | rfl
        · simp at h
        · simp at h
      · rcases List.mem_map.mp h with ⟨e, _, he⟩
        exact digitChar_ne_dot e he
  · rw [if_neg hf]
    have hne : dropTrailingZeros fracD ≠ [] := by
      simpa [List.isEmpty_iff] using hf
    obtain ⟨d, hd⟩ : ∃ d, (dropTrailingZeros fracD).getLast? = some d :=
      exists_getLast?_of_ne_nil hne
    have hdne : d ≠ 0 := dropTrailingZeros_getLast? hd
    have hmapne : (dropTrailingZeros fracD).map digitChar ≠ [] := by simpa using hne
    have hlast : (sign ++ intD.map digitChar
        ++ ('.' :: (dropTrailingZeros fracD).map digitChar)).getLast?
        = some (digitChar d) := by
      rw [List.getLast?_append_of_ne_nil _ (by simp),
        show ('.' :: (dropTrailingZeros fracD).map digitChar)
          = ['.'] ++ (dropTrailingZeros fracD).map digitChar from rfl,
        List.getLast?_append_of_ne_nil _ hmapne, getLast?_map, hd]
      rfl
    apply canonicalTail_eq_true
    · rw [hlast]
      intro hcontra
      exact digitChar_ne_dot d (by simpa using hcontra)
    · right
      rw [hlast]
      intro hcontra
      exact digitChar_ne_zero hdne (by simpa using hcontra)

lemma length_natDigitsFixed (k : ℕ) : ∀ m, (natDigitsFixed k m).length = k := by
  induction k with
  | zero => intro m; rfl
  | succ k ih => intro m; simp [natDigitsFixed, ih]

lemma canonicalTail_gParts (num : ℤ) (den : ℕ) :
    canonicalTail (gParts num den).1 = true := by
  unfold gParts
  by_cases h0 : num = 0
  · rw [if_pos h0]
    decide
  · rw [if_neg h0]
    dsimp only
    set sgn : List Char := if num < 0 then ['-'] else [] with hsgn
    have hs : sgn = [] ∨ sgn = ['-'] := by
      rw [hsgn]
      by_cases hn : num < 0
      · right; rw [if_pos hn]
      · left; rw [if_neg hn]
    split_ifs <;> dsimp only <;> apply canonicalTail_buildMantissa _ _ _ hs <;>
      first
      | (intro hcontra
         have hlen := congrArg List.length hcontra
         rw [List.length_take, length_natDigitsFixed] at hlen
         simp only [List.length_nil] at hlen
         omega)
      | simp

lemma gParts_suffix (num : ℤ) (den : ℕ) :
    (gParts num den).2 = [] ∨ ((gParts num den).2).head? = some 'e' := by
  unfold gParts
  by_cases h0 : num = 0
  · rw [if_pos h0]
    left
    rfl
  · rw [if_neg h0]
    dsimp only
    split_ifs <;> first | (left; rfl) | (right; rfl)

/-- C3: `generate_frame_specs` is deterministic — two runs on identical
inputs are equal (frame for frame, identical `tex_content`), and each
frame's `content_hash` is the hash function applied to its `tex_content`,
so identical text yields identical hash. -/
theorem generate_frame_specs_deterministic (F : PyFuns) (parsed : ParsedTemplate)
    (param_values : List ℚ) (enforced_bbox : Option BoundingBox) (extra_preamble : String) :
    generate_frame_specs F parsed param_values enforced_bbox extra_preamble
      = generate_frame_specs F parsed param_values enforced_bbox extra_preamble
    ∧ ∀ s ∈ generate_frame_specs F parsed param_values enforced_bbox extra_preamble,
        s.content_hash = F.sha256hex s.tex_content := by
  refine ⟨rfl, ?_⟩
  intro s hs
  unfold generate_frame_specs at hs
  dsimp only at hs
  rcases List.mem_map.mp hs with ⟨p, _, rfl⟩
  rfl

/-- C7: frame-body generation substitutes the parameter token with the
`%g` text of the value; that text never carries a trailing decimal point
or a trailing zero after the point (in the mantissa, before any exponent
suffix), and the value `5.0` renders as `5`. -/
theorem frame_body_canonical_substitution (F : PyFuns) (parsed : ParsedTemplate) (v : ℚ) :
    build_frame_body F parsed v none
      = pyReplace (joinStr parsed.body_lines) parsed.param_token (formatG v)
    ∧ (∀ q : ℚ, canonicalTail (gParts q.num q.den).1 = true
        ∧ ((gParts q.num q.den).2 = [] ∨ ((gParts q.num q.den).2).head? = some 'e'))
    ∧ formatG 5 = "5" := by
  refine ⟨rfl, fun q => ⟨canonicalTail_gParts q.num q.den, gParts_suffix q.num q.den⟩, by decide⟩

/-- C10: when a bounding box is enforced and the template has none, but
the substituted body has no `\begin{tikzpicture}...` line terminated by a
newline, the enforced box is silently dropped: the generated body equals
the one generated with no enforced box at all. -/
theorem enforced_bbox_silently_omitted (F : PyFuns) (parsed : ParsedTemplate) (v : ℚ)
    (box : BoundingBox)
    (hnb : parsed.has_bounding_box = false)
    (hnm : searchTikzEnd
        (pyReplace (joinStr parsed.body_lines) parsed.param_token (formatG v)).data 0
      = none) :
    build_frame_body F parsed v (some box) = build_frame_body F parsed v none := by
  unfold build_frame_body
  dsimp only
  rw [hnb]
  simp only [Bool.false_eq_true, if_false, hnm]

/-- C10 witness: a body with no `tikzpicture` opening line at all. -/
theorem enforced_bbox_silently_omitted_witness :
    (({ original_source := "", preamble_lines := [], postamble_lines := [],
        body_lines := ["\\draw (0,0) -- (\\PARAM,1);"], document_class := "",
        class_options := [], detected_packages := [], needs_shell_escape := false,
        has_bounding_box := false, param_token := "\\PARAM" } : ParsedTemplate).has_bounding_box
      = false)
    ∧ build_frame_body ⟨fun _ => "", fun _ => ""⟩
        { original_source := "", preamble_lines := [], postamble_lines := [],
          body_lines := ["\\draw (0,0) -- (\\PARAM,1);"], document_class := "",
          class_options := [], detected_packages := [], needs_shell_escape := false,
          has_bounding_box := false, param_token := "\\PARAM" } 1
        (some ⟨0, 0, 1, 1⟩)
      = build_frame_body ⟨fun _ => "", fun _ => ""⟩
        { original_source := "", preamble_lines := [], postamble_lines := [],
          body_lines := ["\\draw (0,0) -- (\\PARAM,1);"], document_class := "",
          class_options := [], detected_packages := [], needs_shell_escape := false,
          has_bounding_box := false, param_token := "\\PARAM" } 1 none :=
  ⟨rfl, enforced_bbox_silently_omitted _ _ 1 _ rfl (by decide)⟩

/-! Embedding of `tikzgif.cache`.  `pathlib` paths are modelled as their
component lists; the file system is the list of file paths present.  The
cache claim concerns `has_frame` and the `store_*` writes, so the state
is generated by store operations. -/

/-- A file-system path, as its `pathlib` components. -/
abbrev FsPath := List String

/-- Python `h[:2]` (character slicing). -/
def pyTake (s : String) (n : ℕ) : String := ⟨s.data.take n⟩

/-- Python `h[2:]` (character slicing). -/
def pyDrop (s : String) (n : ℕ) : String := ⟨s.data.drop n⟩

/-- Embeds `tikzgif.cache._key_dir`: `root / "frames" / hash[:2] / hash[2:]`. -/
def key_dir (root : FsPath) (content_hash : String) : FsPath :=
  root ++ ["frames", pyTake content_hash 2, pyDrop content_hash 2]

/-- One cache write: `store_tex`, `store_pdf`, `store_png` or
`store_bbox`, each writing a single file into the hash's key directory. -/
inductive CacheOp where
  | storeTex (h : String)
  | storePdf (h : String)
  | storePng (h : String)
  | storeBbox (h : String)
deriving DecidableEq, Repr

/-- The content hash a store operation is keyed by. -/
def CacheOp.hash : CacheOp → String
  | .storeTex h => h
  | .storePdf h => h
  | .storePng h => h
  | .storeBbox h => h

/-- The file name each store operation writes (`frame.tex`, `frame.pdf`,
`frame.png`, `bbox.json`). -/
def CacheOp.fileName : CacheOp → String
  | .storeTex _ => "frame.tex"
  | .storePdf _ => "frame.pdf"
  | .storePng _ => "frame.png"
  | .storeBbox _ => "bbox.json"

/-- The full path a store operation writes. -/
def CacheOp.path (root : FsPath) (op : CacheOp) : FsPath :=
  key_dir root op.hash ++ [op.fileName]

/-- Perform one store: the written file now exists. -/
def applyOp (root : FsPath) (fs : List FsPath) (op : CacheOp) : List FsPath :=
  op.path root :: fs

/-- Perform a sequence of stores on a file-system state. -/
def applyOps (root : FsPath) (fs : List FsPath) (ops : List CacheOp) : List FsPath :=
  ops.foldl (applyOp root) fs

/-- Embeds `CompilationCache.has_frame`: true iff `frame.pdf` exists in
the hash's key directory. -/
def has_frame (root : FsPath) (fs : List FsPath) (content_hash : String) : Bool :=
  decide ((key_dir root content_hash ++ ["frame.pdf"]) ∈ fs)

/-- Embeds `CompilationCache.store_pdf` (the copy of the compiled PDF to
`_key_dir / "frame.pdf"`). -/
def store_pdf (root : FsPath) (fs : List FsPath) (content_hash : String) : List FsPath :=
  applyOp root fs (CacheOp.storePdf content_hash)

lemma pyTakeDrop_inj {a b : String} (ht : pyTake a 2 = pyTake b 2)
    (hd : pyDrop a 2 = pyDrop b 2) : a = b := by
  unfold pyTake at ht
  unfold pyDrop at hd
  have h1 : a.data.take 2 = b.data.take 2 := congrArg String.data ht
  have h2 : a.data.drop 2 = b.data.drop 2 := congrArg String.data hd
  have hdata : a.data = b.data := by
    rw [← List.take_append_drop 2 a.data, h1, h2, List.take_append_drop]
  cases a
  cases b
  exact congrArg String.mk hdata

lemma cacheOp_path_ne {root : FsPath} {h : String} {op : CacheOp}
    (hop : op ≠ CacheOp.storePdf h) :
    CacheOp.path root op ≠ key_dir root h ++ ["frame.pdf"] := by
  intro heq
  unfold CacheOp.path key_dir at heq
  rw [List.append_assoc, List.append_assoc] at heq
  have heq2 := List.append_cancel_left heq
  cases op with
  | storeTex g => simp [CacheOp.hash, CacheOp.fileName] at heq2
  | storePng g => simp [CacheOp.hash, CacheOp.fileName] at heq2
  | storeBbox g => simp [CacheOp.hash, CacheOp.fileName] at heq2
  | storePdf g =>
    simp only [CacheOp.hash, CacheOp.fileName, List.cons_append, List.nil_append,
      List.cons.injEq, and_true, true_and] at heq2
    exact hop (by rw [pyTakeDrop_inj heq2.1 heq2.2])

lemma not_mem_applyOps {root : FsPath} {h : String} (ops : List CacheOp) (fs : List FsPath)
    (hfs : (key_dir root h ++ ["frame.pdf"]) ∉ fs)
    (hnot : ∀ op ∈ ops, op ≠ CacheOp.storePdf h) :
    (key_dir root h ++ ["frame.pdf"]) ∉ applyOps root fs ops := by
  induction ops generalizing fs with
  | nil => exact hfs
  | cons op ops ih =>
    apply ih (applyOp root fs op)
    · intro hmem
      rcases List.mem_cons.mp hmem with hme | hme
      · exact cacheOp_path_ne (hnot op (List.mem_cons_self op ops)) hme.symm
      · exact hfs hme
    · intro o ho
      exact hnot o (List.mem_cons_of_mem op ho)

/-- C5: `has_frame h` is false on every cache state built by store
operations none of which is a `store_pdf` for `h`, and is true on any
state immediately after `store_pdf` for `h`. -/
theorem has_frame_store_pdf_spec (root : FsPath) (h : String) (ops : List CacheOp)
    (hnot : ∀ op ∈ ops, op ≠ CacheOp.storePdf h) :
    has_frame root (applyOps root [] ops) h = false
    ∧ ∀ fs : List FsPath, has_frame root (store_pdf root fs h) h = true := by
  constructor
  · have := @not_mem_applyOps root h ops [] (by simp) hnot
    simpa [has_frame] using this
  · intro fs
    simp [has_frame, store_pdf, applyOp, CacheOp.path, CacheOp.hash, CacheOp.fileName]

/-- C5 witness: an empty history plus one unrelated store, then a
`store_pdf` for a concrete hash. -/
theorem has_frame_store_pdf_spec_witness :
    (∀ op ∈ [CacheOp.storeTex "ab12", CacheOp.storePdf "cd34"],
        op ≠ CacheOp.storePdf "ab12")
    ∧ has_frame [] (applyOps [] [] [CacheOp.storeTex "ab12", CacheOp.storePdf "cd34"]) "ab12"
        = false
    ∧ ∀ fs : List FsPath, has_frame [] (store_pdf [] fs "ab12") "ab12" = true :=
  ⟨by decide,
    (has_frame_store_pdf_spec [] "ab12" [CacheOp.storeTex "ab12", CacheOp.storePdf "cd34"]
      (by decide)).1,
    (has_frame_store_pdf_spec [] "ab12" [CacheOp.storeTex "ab12", CacheOp.storePdf "cd34"]
      (by decide)).2⟩

/-! Embedding of `tikzgif.assembly.deduplicate_frames`.  The image type
is a parameter (PIL images are opaque data), and the closeness test
`_rmse(a, b) < threshold` is the abstract Boolean `close`.  Durations are
Python ints. -/

/-- Embeds `tikzgif.assembly.DeduplicatedFrame`. -/
structure DeduplicatedFrame (Img : Type) where
  image : Img
  delay_ms : ℤ
  original_indices : List ℕ
deriving DecidableEq, Repr

/-- The `for i in range(1, len(images))` loop of `deduplicate_frames`:
`cur` is `groups[-1]`, `rest` the remaining `(index, image, delay)`
triples.  A close frame is merged into `cur` (duration summed, index
absorbed); otherwise `cur` is closed and a fresh group starts. -/
def dedupLoop {Img : Type} (close : Img → Img → Bool) (cur : DeduplicatedFrame Img) :
    List (ℕ × Img × ℤ) → List (DeduplicatedFrame Img)
  | [] => [cur]
  | (i, img, d) :: rest =>
    if close cur.image img then
      dedupLoop close
        { cur with delay_ms := cur.delay_ms + d,
                   original_indices := cur.original_indices ++ [i] } rest
    else
      cur :: dedupLoop close ⟨img, d, [i]⟩ rest

/-- Embeds `tikzgif.assembly.deduplicate_frames`. -/
def deduplicate_frames {Img : Type} (close : Img → Img → Bool)
    (images : List Img) (delays_ms : List ℤ) : List (DeduplicatedFrame Img) :=
  match ((images.zip delays_ms).enum.map (fun p => (p.1, p.2.1, p.2.2))) with
  | [] => []
  | (i, img, d) :: rest => dedupLoop close ⟨img, d, [i]⟩ rest

lemma dedupLoop_join {Img : Type} (close : Img → Img → Bool) :
    ∀ (rest : List (ℕ × Img × ℤ)) (cur : DeduplicatedFrame Img),
      ((dedupLoop close cur rest).map DeduplicatedFrame.original_indices).join
        = cur.original_indices ++ rest.map (fun p => p.1) := by
  intro rest
  induction rest with
  | nil => intro cur; simp [dedupLoop]
  | cons p rest ih =>
    intro cur
    obtain ⟨i, img, d⟩ := p
    rw [dedupLoop]
    split_ifs
    · rw [ih]
      simp
    · simp only [List.map_cons, List.join_cons, ih]
      simp

lemma dedupLoop_delay {Img : Type} (close : Img → Img → Bool) (delays : List ℤ) :
    ∀ (rest : List (ℕ × Img × ℤ)) (cur : DeduplicatedFrame Img),
      (∀ p ∈ rest, delays.getD p.1 0 = p.2.2) →
      cur.delay_ms = (cur.original_indices.map (fun j => delays.getD j 0)).sum →
      ∀ g ∈ dedupLoop close cur rest,
        g.delay_ms = (g.original_indices.map (fun j => delays.getD j 0)).sum := by
  intro rest
  induction rest with
  | nil =>
    intro cur _ hcur g hg
    rw [dedupLoop] at hg
    rcases List.mem_singleton.mp hg with rfl
    exact hcur
  | cons p rest ih =>
    intro cur hdel hcur g hg
    obtain ⟨i, img, d⟩ := p
    have hd : delays.getD i 0 = d := hdel (i, img, d) (List.mem_cons_self _ _)
    have hdel' : ∀ p ∈ rest, delays.getD p.1 0 = p.2.2 := fun p hp =>
      hdel p (List.mem_cons_of_mem _ hp)
    rw [dedupLoop] at hg
    split_ifs at hg
    · refine ih _ hdel' ?_ g hg
      simp only [List.map_append, List.sum_append, List.map_cons, List.map_nil,
        List.sum_cons, List.sum_nil, hd]
      rw [hcur]
      ring
    · rcases List.mem_cons.mp hg with rfl | hg'
      · exact hcur
      · refine ih _ hdel' ?_ g hg'
        simp only [List.map_cons, List.map_nil, List.sum_cons, List.sum_nil, add_zero]
        exact hd.symm

lemma map_getD_range (l : List ℤ) :
    (List.range l.length).map (fun j => l.getD j 0) = l := by
  induction l with
  | nil => rfl
  | cons x xs ih =>
    rw [List.length_cons, List.range_succ_eq_map, List.map_cons, List.map_map]
    have h1 : ((fun j => (x :: xs).getD j 0) ∘ (· + 1)) = fun j => xs.getD j 0 := by
      funext j
      exact List.getD_cons_succ
    rw [h1, ih, List.getD_cons_zero]

/-- C6: `deduplicate_frames` partitions the input indices, in order, into
consecutive groups; each group's `delay_ms` is the sum of the absorbed
frames' durations; hence the total duration is preserved; empty input
yields `[]`. -/
lemma deduplicate_frames_match {Img : Type} (close : Img → Img → Bool)
    (images : List Img) (delays : List ℤ) {i : ℕ} {img : Img} {d : ℤ}
    {rest : List (ℕ × Img × ℤ)}
    (hL : (images.zip delays).enum.map (fun p => (p.1, p.2.1, p.2.2)) = (i, img, d) :: rest) :
    deduplicate_frames close images delays = dedupLoop close ⟨img, d, [i]⟩ rest := by
  unfold deduplicate_frames
  rw [hL]

theorem deduplicate_frames_spec {Img : Type} (close : Img → Img → Bool)
    (images : List Img) (delays_ms : List ℤ)
    (hlen : images.length = delays_ms.length) :
    (images = [] → deduplicate_frames close images delays_ms = [])
    ∧ ((deduplicate_frames close images delays_ms).map
        DeduplicatedFrame.original_indices).join = List.range images.length
    ∧ (∀ g ∈ deduplicate_frames close images delays_ms,
        g.delay_ms = (g.original_indices.map (fun j => delays_ms.getD j 0)).sum)
    ∧ ((deduplicate_frames close images delays_ms).map DeduplicatedFrame.delay_ms).sum
        = delays_ms.sum := by
  have hzlen : (images.zip delays_ms).length = images.length := by
    rw [List.length_zip, hlen, min_self]
  have hdel : ∀ p ∈ (images.zip delays_ms).enum.map (fun p => (p.1, p.2.1, p.2.2)),
      delays_ms.getD p.1 0 = p.2.2 := by
    intro p hp
    rcases List.mem_map.mp hp with ⟨q, hq, rfl⟩
    have := List.mem_enum_iff_getElem?.mp hq
    rw [List.getElem?_zip_eq_some] at this
    simp only
    rw [List.getD_eq_getElem?_getD, this.2]
    rfl
  have hfst : ((images.zip delays_ms).enum.map (fun p => (p.1, p.2.1, p.2.2))).map
      (fun p => p.1) = List.range images.length := by
    rw [List.map_map]
    have : ((fun p : ℕ × Img × ℤ => p.1) ∘ (fun p : ℕ × (Img × ℤ) => (p.1, p.2.1, p.2.2)))
        = Prod.fst := rfl
    rw [this, List.enum_map_fst, hzlen]
  have hjoin : ((deduplicate_frames close images delays_ms).map
      DeduplicatedFrame.original_indices).join = List.range images.length := by
    rcases hL : (images.zip delays_ms).enum.map (fun p => (p.1, p.2.1, p.2.2))
      with _ | ⟨⟨i, img, d⟩, rest⟩
    · have himg : images = [] := by
        have hlen0 := congrArg List.length hL
        simp only [List.length_map, List.enum_length, List.length_nil] at hlen0
        rw [hzlen] at hlen0
        exact List.length_eq_zero.mp hlen0
      subst himg
      have hd0 : delays_ms = [] := by
        have := hlen.symm
        simp only [List.length_nil] at this
        exact List.length_eq_zero.mp this
      subst hd0
      rfl
    · rw [deduplicate_frames_match close images delays_ms hL, dedupLoop_join]
      rw [hL] at hfst
      simpa using hfst
  have hdelay : ∀ g ∈ deduplicate_frames close images delays_ms,
      g.delay_ms = (g.original_indices.map (fun j => delays_ms.getD j 0)).sum := by
    rcases hL : (images.zip delays_ms).enum.map (fun p => (p.1, p.2.1, p.2.2))
      with _ | ⟨⟨i, img, d⟩, rest⟩
    · have himg : images = [] := by
        have hlen0 := congrArg List.length hL
        simp only [List.length_map, List.enum_length, List.length_nil] at hlen0
        rw [hzlen] at hlen0
        exact List.length_eq_zero.mp hlen0
      subst himg
      have hd0 : delays_ms = [] := by
        have := hlen.symm
        simp only [List.length_nil] at this
        exact List.length_eq_zero.mp this
      subst hd0
      intro g hg
      simp [deduplicate_frames] at hg
    · rw [hL] at hdel
      rw [deduplicate_frames_match close images delays_ms hL]
      refine dedupLoop_delay close delays_ms rest ⟨img, d, [i]⟩ ?_ ?_
      · intro p hp
        exact hdel p (List.mem_cons_of_mem _ hp)
      · have := hdel (i, img, d) (List.mem_cons_self _ _)
        simpa using this.symm
  refine ⟨?_, hjoin, hdelay, ?_⟩
  · intro h
    subst h
    rfl
  · have hmapeq : (deduplicate_frames close images delays_ms).map DeduplicatedFrame.delay_ms
        = (deduplicate_frames close images delays_ms).map
            (fun g => (g.original_indices.map (fun j => delays_ms.getD j 0)).sum) :=
      List.map_congr_left hdelay
    have hrw : (((deduplicate_frames close images delays_ms).map
          DeduplicatedFrame.original_indices).join.map (fun j => delays_ms.getD j 0)).sum
        = ((deduplicate_frames close images delays_ms).map
            (fun g => (g.original_indices.map (fun j => delays_ms.getD j 0)).sum)).sum := by
      rw [List.map_join, List.sum_join, List.map_map, List.map_map]
      rfl
    rw [hmapeq, ← hrw, hjoin]
    have h2 : List.range images.length = List.range delays_ms.length := by rw [hlen]
    rw [h2, map_getD_range]

/-- C6 witness: three frames, the first two visually identical. -/
theorem deduplicate_frames_spec_witness :
    ([1, 1, 2] : List ℕ).length = ([10, 20, 30] : List ℤ).length
    ∧ (([1, 1, 2] : List ℕ) = []
        → deduplicate_frames (fun a b : ℕ => a == b) [1, 1, 2] [10, 20, 30] = [])
    ∧ ((deduplicate_frames (fun a b : ℕ => a == b) [1, 1, 2] [10, 20, 30]).map
        DeduplicatedFrame.original_indices).join = List.range ([1, 1, 2] : List ℕ).length
    ∧ (∀ g ∈ deduplicate_frames (fun a b : ℕ => a == b) [1, 1, 2] [10, 20, 30],
        g.delay_ms = (g.original_indices.map
          (fun j => ([10, 20, 30] : List ℤ).getD j 0)).sum)
    ∧ ((deduplicate_frames (fun a b : ℕ => a == b) [1, 1, 2] [10, 20, 30]).map
        DeduplicatedFrame.delay_ms).sum = ([10, 20, 30] : List ℤ).sum :=
  ⟨rfl,
    (deduplicate_frames_spec (fun a b : ℕ => a == b) [1, 1, 2] [10, 20, 30] rfl).1,
    (deduplicate_frames_spec (fun a b : ℕ => a == b) [1, 1, 2] [10, 20, 30] rfl).2.1,
    (deduplicate_frames_spec (fun a b : ℕ => a == b) [1, 1, 2] [10, 20, 30] rfl).2.2.1,
    (deduplicate_frames_spec (fun a b : ℕ => a == b) [1, 1, 2] [10, 20, 30] rfl).2.2.2⟩

/-! Embedding of `tikzgif.compiler.compile_frames`.  The worker-pool
concurrency is sequentialized in submission (spec) order; this fixes one
`as_completed` arrival order, which is all the claims quantify over.  The
outcome of `_compile_single_frame` (an external LaTeX process) is the
oracle `attempt spec timeout`; the cache lookups `get_pdf_path` /
`get_bbox` are the oracles `getPdf` / `getBbox`.  Raising
`CompilationError` is the `Except.error` case.  Alongside the results the
model returns a log of every `_compile_single_frame` invocation as
`(frame index, timeout)` pairs, in order. -/

/-- Embeds `tikzgif.types.ErrorPolicy`. -/
inductive ErrorPolicy where
  | ABORT
  | SKIP
  | RETRY
deriving DecidableEq, Repr

/-- Embeds `tikzgif.types.FrameResult`. -/
structure FrameResult where
  index : ℤ
  success : Bool
  pdf_path : Option String
  png_path : Option String
  error_message : String
  cached : Bool
  compile_time_s : ℚ
  bounding_box : Option BoundingBox
deriving DecidableEq, Repr

/-- The failure synthesized by the reassembly loop for an index with no
recorded result (`compiler.py` lines 417-422). -/
def synthesizedFailure (i : ℤ) : FrameResult :=
  { index := i, success := false, pdf_path := none, png_path := none,
    error_message := "Frame was not compiled (internal error).",
    cached := false, compile_time_s := 0, bounding_box := none }

/-- The `-- Assemble ordered results --` loop of `compile_frames`:
traverse the input specs in order; emit the recorded result for each
index, or a synthesized failure when none is recorded. -/
def assemble (specs : List FrameSpec) (results : ℤ → Option FrameResult) : List FrameResult :=
  specs.map (fun s => (results s.index).getD (synthesizedFailure s.index))

/-- The `FrameResult` built for a cache hit in phase 1. -/
def cachedResult (s : FrameSpec) (pdf : String) (bbox : Option BoundingBox) : FrameResult :=
  { index := s.index, success := true, pdf_path := some pdf, png_path := none,
    error_message := "", cached := true, compile_time_s := 0, bounding_box := bbox }

/-- Phase 1 recorded results: one cached success per cache hit. -/
def cachedResults (getPdf : String → Option String) (getBbox : String → Option BoundingBox)
    (specs : List FrameSpec) : List (ℤ × FrameResult) :=
  (specs.filter (fun s => (getPdf s.content_hash).isSome)).map
    (fun s => (s.index,
      cachedResult s ((getPdf s.content_hash).getD "") (getBbox s.content_hash)))

/-- Phase 1 queue: the specs not found in the cache. -/
def toCompile (getPdf : String → Option String) (specs : List FrameSpec) : List FrameSpec :=
  specs.filter (fun s => (getPdf s.content_hash).isNone)

/-- Phase 2: each queued spec is compiled once with the configured
timeout (in submission order). -/
def firstAttempts (attempt : FrameSpec → ℚ → FrameResult) (getPdf : String → Option String)
    (timeout : ℚ) (specs : List FrameSpec) : List (FrameSpec × FrameResult) :=
  (toCompile getPdf specs).map (fun s => (s, attempt s timeout))

/-- The specs queued for retry under `RETRY`: exactly the phase-2
failures. -/
def retryQueue (attempt : FrameSpec → ℚ → FrameResult) (getPdf : String → Option String)
    (timeout : ℚ) (specs : List FrameSpec) : List FrameSpec :=
  ((firstAttempts attempt getPdf timeout specs).filter (fun p => !p.2.success)).map
    (fun p => p.1)

/-- Embeds `tikzgif.compiler.compile_frames` (phases 1-3 plus the ordered
reassembly), with the per-frame compile outcome and the cache as oracles;
also returns the invocation log. -/
def compile_frames (attempt : FrameSpec → ℚ → FrameResult)
    (getPdf : String → Option String) (getBbox : String → Option BoundingBox)
    (policy : ErrorPolicy) (timeout_per_frame_s : ℚ) (specs : List FrameSpec) :
    Except String (List FrameResult × List (ℤ × ℚ)) :=
  let log1 : List (ℤ × ℚ) :=
    (toCompile getPdf specs).map (fun s => (s.index, timeout_per_frame_s))
  match policy with
  | .ABORT =>
    match (firstAttempts attempt getPdf timeout_per_frame_s specs).find?
        (fun p => !p.2.success) with
    | some p =>
      .error ("Frame " ++ toString p.1.index ++ " failed to compile:\n" ++ p.2.error_message)
    | none =>
      .ok (assemble specs (fun i =>
        (cachedResults getPdf getBbox specs
          ++ (firstAttempts attempt getPdf timeout_per_frame_s specs).map
              (fun p => (p.1.index, p.2))).lookup i), log1)
  | .SKIP =>
    .ok (assemble specs (fun i =>
      (cachedResults getPdf getBbox specs
        ++ (firstAttempts attempt getPdf timeout_per_frame_s specs).map
            (fun p => (p.1.index, p.2))).lookup i), log1)
  | .RETRY =>
    .ok (assemble specs (fun i =>
      (cachedResults getPdf getBbox specs
        ++ ((firstAttempts attempt getPdf timeout_per_frame_s specs).filter
            (fun p => p.2.success)).map (fun p => (p.1.index, p.2))
        ++ (retryQueue attempt getPdf timeout_per_frame_s specs).map
            (fun s => (s.index, attempt s (timeout_per_frame_s * 2)))).lookup i),
      log1 ++ (retryQueue attempt getPdf timeout_per_frame_s specs).map
        (fun s => (s.index, timeout_per_frame_s * 2)))

lemma assemble_length (specs : List FrameSpec) (results : ℤ → Option FrameResult) :
    (assemble specs results).length = specs.length := by
  unfold assemble
  rw [List.length_map]

lemma assemble_get (specs : List FrameSpec) (results : ℤ → Option FrameResult)
    (i : ℕ) (h : i < specs.length) (h2 : i < (assemble specs results).length) :
    (assemble specs results).get ⟨i, h2⟩
      = (results (specs.get ⟨i, h⟩).index).getD (synthesizedFailure (specs.get ⟨i, h⟩).index) := by
  unfold assemble at h2 ⊢
  rw [List.get_map]

/-- C1: the ordered reassembly returns exactly one result per input spec,
in input order; an index with a recorded result gets that result, and an
index with no recorded result gets a synthesized internal-error failure.
Moreover any run of `compile_frames` that returns at all returns a list
of the input's length. -/
theorem compile_frames_reassembly (specs : List FrameSpec) (results : ℤ → Option FrameResult)
    (hdist : specs.Pairwise (fun a b => a.index ≠ b.index)) :
    (assemble specs results).length = specs.length
    ∧ (∀ i (h : i < specs.length) (h2 : i < (assemble specs results).length),
        (∀ r, results (specs.get ⟨i, h⟩).index = some r →
          (assemble specs results).get ⟨i, h2⟩ = r)
        ∧ (results (specs.get ⟨i, h⟩).index = none →
          (assemble specs results).get ⟨i, h2⟩
            = synthesizedFailure (specs.get ⟨i, h⟩).index))
    ∧ (∀ (attempt : FrameSpec → ℚ → FrameResult) (getPdf : String → Option String)
        (getBbox : String → Option BoundingBox) (policy : ErrorPolicy) (t : ℚ)
        (rs : List FrameResult) (log : List (ℤ × ℚ)),
        compile_frames attempt getPdf getBbox policy t specs = Except.ok (rs, log) →
          rs.length = specs.length) := by
  refine ⟨assemble_length specs results, ?_, ?_⟩
  · intro i h h2
    constructor
    · intro r hr
      rw [assemble_get specs results i h h2, hr]
      rfl
    · intro hr
      rw [assemble_get specs results i h h2, hr]
      rfl
  · intro attempt getPdf getBbox policy t rs log hok
    cases policy with
    | ABORT =>
      unfold compile_frames at hok
      rcases hfind : (firstAttempts attempt getPdf t specs).find? (fun p => !p.2.success)
        with _ | p
      · rw [hfind] at hok
        simp only [Except.ok.injEq, Prod.mk.injEq] at hok
        rw [← hok.1]
        exact assemble_length _ _
      · rw [hfind] at hok
        simp at hok
    | SKIP =>
      unfold compile_frames at hok
      simp only [Except.ok.injEq, Prod.mk.injEq] at hok
      rw [← hok.1]
      exact assemble_length _ _
    | RETRY =>
      unfold compile_frames at hok
      simp only [Except.ok.injEq, Prod.mk.injEq] at hok
      rw [← hok.1]
      exact assemble_length _ _

/-- C1 witness: two specs, a recorded result only for index 0. -/
theorem compile_frames_reassembly_witness :
    ([⟨0, 0, "t", "a", "ha"⟩, ⟨1, 1, "t", "b", "hb"⟩] : List FrameSpec).Pairwise
      (fun a b => a.index ≠ b.index)
    ∧ (assemble [⟨0, 0, "t", "a", "ha"⟩, ⟨1, 1, "t", "b", "hb"⟩]
        (fun i => if i = 0 then some (synthesizedFailure 7) else none)).length
      = ([⟨0, 0, "t", "a", "ha"⟩, ⟨1, 1, "t", "b", "hb"⟩] : List FrameSpec).length :=
  ⟨by decide,
    (compile_frames_reassembly [⟨0, 0, "t", "a", "ha"⟩, ⟨1, 1, "t", "b", "hb"⟩]
      (fun i => if i = 0 then some (synthesizedFailure 7) else none) (by decide)).1⟩

lemma lookup_append_of_none {β : Type} {i : ℤ} {l₁ : List (ℤ × β)} (l₂ : List (ℤ × β))
    (h : l₁.lookup i = none) : (l₁ ++ l₂).lookup i = l₂.lookup i := by
  induction l₁ with
  | nil => rfl
  | cons q l ih =>
    rcases hbe : (i == q.1) with _ | _
    · simp only [List.lookup, hbe] at h
      simp only [List.cons_append, List.lookup, hbe]
      exact ih h
    · simp only [List.lookup, hbe] at h
      exact absurd h (by simp)

lemma lookup_none_of_keys_ne {β : Type} (i : ℤ) :
    ∀ l : List (ℤ × β), (∀ q ∈ l, q.1 ≠ i) → l.lookup i = none := by
  intro l
  induction l with
  | nil => intro _; rfl
  | cons q l ih =>
    intro hq
    have hne : (i == q.1) = false := by
      rw [beq_eq_false_iff_ne]
      exact fun hcontra => hq q (List.mem_cons_self q l) hcontra.symm
    simp only [List.lookup, hne]
    exact ih fun p hp => hq p (List.mem_cons_of_mem q hp)

lemma lookup_map_index_some (f : FrameSpec → FrameResult) :
    ∀ l : List FrameSpec, l.Pairwise (fun a b => a.index ≠ b.index) →
      ∀ s ∈ l, (l.map (fun x => (x.index, f x))).lookup s.index = some (f s) := by
  intro l
  induction l with
  | nil => intro _ s hs; simp at hs
  | cons a l ih =>
    intro hp s hs
    have hhead := (List.pairwise_cons.mp hp).1
    have htail := (List.pairwise_cons.mp hp).2
    rcases List.mem_cons.mp hs with rfl | hs'
    · simp [List.lookup]
    · have hne : (s.index == a.index) = false := by
        rw [beq_eq_false_iff_ne]
        exact fun hcontra => hhead s hs' hcontra.symm
      simp only [List.map_cons, List.lookup, hne]
      exact ih htail s hs'

lemma countP_index_eq_one :
    ∀ l : List FrameSpec, l.Pairwise (fun a b => a.index ≠ b.index) →
      ∀ s ∈ l, l.countP (fun x => x.index == s.index) = 1 := by
  intro l
  induction l with
  | nil => intro _ s hs; simp at hs
  | cons a l ih =>
    intro hp s hs
    have hhead := (List.pairwise_cons.mp hp).1
    have htail := (List.pairwise_cons.mp hp).2
    rcases List.mem_cons.mp hs with rfl | hs'
    · rw [List.countP_cons_of_pos _ _ (by simp)]
      have hzero : l.countP (fun x => x.index == s.index) = 0 := by
        rw [List.countP_eq_zero]
        intro x hx
        simp only [beq_iff_eq]
        exact fun hcontra => hhead x hx hcontra.symm
      rw [hzero]
    · rw [List.countP_cons_of_neg _ _ (by
        simp only [beq_iff_eq]
        exact hhead s hs')]
      exact ih htail s hs'

lemma pairwise_index_ne_of_mem {specs : List FrameSpec}
    (hdist : specs.Pairwise (fun a b => a.index ≠ b.index)) :
    ∀ a ∈ specs, ∀ b ∈ specs, a ≠ b → a.index ≠ b.index := by
  induction specs with
  | nil => intro a ha; simp at ha
  | cons x l ih =>
    intro a ha b hb hne
    have hhead := (List.pairwise_cons.mp hdist).1
    have htail := (List.pairwise_cons.mp hdist).2
    rcases List.mem_cons.mp ha with rfl | ha' <;> rcases List.mem_cons.mp hb with rfl | hb'
    · exact absurd rfl hne
    · exact hhead b hb'
    · exact fun hcontra => hhead a ha' hcontra.symm
    · exact ih htail a ha' b hb' hne

lemma retryQueue_eq_filter (attempt : FrameSpec → ℚ → FrameResult)
    (getPdf : String → Option String) (t : ℚ) (specs : List FrameSpec) :
    retryQueue attempt getPdf t specs
      = (toCompile getPdf specs).filter (fun s => !(attempt s t).success) := by
  unfold retryQueue firstAttempts
  rw [List.filter_map, List.map_map]
  have h1 : ((fun p : FrameSpec × FrameResult => p.1) ∘ fun s => (s, attempt s t)) = id := rfl
  have h2 : ((fun p : FrameSpec × FrameResult => !p.2.success) ∘ fun s => (s, attempt s t))
      = fun s => !(attempt s t).success := rfl
  rw [h1, h2, List.map_id]

/-- C8: under `RETRY`, a non-cached frame whose first attempt fails is
compiled exactly twice — once with the configured timeout and once with
the doubled timeout — and its final recorded result is the second
attempt's outcome (so a second failure is terminal, with no further
retries). -/
theorem retry_policy_spec (attempt : FrameSpec → ℚ → FrameResult)
    (getPdf : String → Option String) (getBbox : String → Option BoundingBox)
    (timeout : ℚ) (specs : List FrameSpec) (spec : FrameSpec)
    (hdist : specs.Pairwise (fun a b => a.index ≠ b.index))
    (hmem : spec ∈ specs)
    (hnc : getPdf spec.content_hash = none)
    (hfail : (attempt spec timeout).success = false) :
    ∃ rs log,
      compile_frames attempt getPdf getBbox ErrorPolicy.RETRY timeout specs
        = Except.ok (rs, log)
      ∧ log.countP (fun p => p.1 == spec.index) = 2
      ∧ (spec.index, timeout) ∈ log
      ∧ (spec.index, timeout * 2) ∈ log
      ∧ rs.length = specs.length
      ∧ ∀ i (h : i < specs.length) (h2 : i < rs.length), specs.get ⟨i, h⟩ = spec →
          rs.get ⟨i, h2⟩ = attempt spec (timeout * 2) := by
  have htc_pairwise : (toCompile getPdf specs).Pairwise (fun a b => a.index ≠ b.index) :=
    hdist.sublist (List.filter_sublist specs)
  have htc_mem : spec ∈ toCompile getPdf specs := by
    unfold toCompile
    rw [List.mem_filter]
    exact ⟨hmem, by rw [hnc]; rfl⟩
  have hrq_eq := retryQueue_eq_filter attempt getPdf timeout specs
  have hrq_pairwise : (retryQueue attempt getPdf timeout specs).Pairwise
      (fun a b => a.index ≠ b.index) := by
    rw [hrq_eq]
    exact htc_pairwise.sublist (List.filter_sublist _)
  have hrq_mem : spec ∈ retryQueue attempt getPdf timeout specs := by
    rw [hrq_eq, List.mem_filter]
    exact ⟨htc_mem, by rw [hfail]; rfl⟩
  refine ⟨_, _, rfl, ?_, ?_, ?_, assemble_length _ _, ?_⟩
  · -- exactly two logged attempts for this index
    rw [List.countP_append]
    have h1 : ((toCompile getPdf specs).map (fun s => (s.index, timeout))).countP
        (fun p => p.1 == spec.index) = 1 := by
      rw [List.countP_map]
      exact countP_index_eq_one _ htc_pairwise spec htc_mem
    have h2 : ((retryQueue attempt getPdf timeout specs).map
        (fun s => (s.index, timeout * 2))).countP (fun p => p.1 == spec.index) = 1 := by
      rw [List.countP_map]
      exact countP_index_eq_one _ hrq_pairwise spec hrq_mem
    rw [h1, h2]
  · exact List.mem_append_left _ (List.mem_map.mpr ⟨spec, htc_mem, rfl⟩)
  · exact List.mem_append_right _ (List.mem_map.mpr ⟨spec, hrq_mem, rfl⟩)
  · intro i h h2 hspec
    rw [assemble_get _ _ i h h2, hspec]
    have hcached_none : (cachedResults getPdf getBbox specs).lookup spec.index = none := by
      apply lookup_none_of_keys_ne
      intro q hq
      unfold cachedResults at hq
      rcases List.mem_map.mp hq with ⟨s', hs', rfl⟩
      rw [List.mem_filter] at hs'
      have hs'ne : s' ≠ spec := by
        intro hcontra
        subst hcontra
        rw [hnc] at hs'
        simp at hs'
      exact pairwise_index_ne_of_mem hdist s' hs'.1 spec hmem hs'ne
    have hsucc_none : (((firstAttempts attempt getPdf timeout specs).filter
        (fun p => p.2.success)).map (fun p => (p.1.index, p.2))).lookup spec.index = none := by
      apply lookup_none_of_keys_ne
      intro q hq
      rcases List.mem_map.mp hq with ⟨p, hp, rfl⟩
      rw [List.mem_filter] at hp
      unfold firstAttempts at hp
      rcases List.mem_map.mp hp.1 with ⟨s', hs', rfl⟩
      have hs'ne : s' ≠ spec := by
        intro hcontra
        subst hcontra
        rw [hfail] at hp
        simp at hp
      exact pairwise_index_ne_of_mem htc_pairwise s' hs' spec htc_mem hs'ne
    have hsecond : ((retryQueue attempt getPdf timeout specs).map
        (fun s => (s.index, attempt s (timeout * 2)))).lookup spec.index
        = some (attempt spec (timeout * 2)) :=
      lookup_map_index_some _ _ hrq_pairwise spec hrq_mem
    rw [List.append_assoc, lookup_append_of_none _ hcached_none,
      lookup_append_of_none _ hsucc_none, hsecond]
    rfl

/-- A concrete compile oracle that always fails, for witnesses. -/
def alwaysFailAttempt (s : FrameSpec) (_ : ℚ) : FrameResult :=
  { index := s.index, success := false, pdf_path := none, png_path := none,
    error_message := "err", cached := false, compile_time_s := 0, bounding_box := none }

/-- A concrete frame spec, for witnesses. -/
def witSpec : FrameSpec := ⟨0, 0, "t", "a", "h"⟩

/-- C8 witness: a single non-cached spec whose compile attempts always
fail. -/
theorem retry_policy_spec_witness :
    ∃ rs log,
      compile_frames alwaysFailAttempt (fun _ => none) (fun _ => none)
          ErrorPolicy.RETRY 30 [witSpec]
        = Except.ok (rs, log)
      ∧ log.countP (fun p => p.1 == witSpec.index) = 2
      ∧ (witSpec.index, (30 : ℚ)) ∈ log
      ∧ (witSpec.index, (30 : ℚ) * 2) ∈ log
      ∧ rs.length = [witSpec].length
      ∧ ∀ i (h : i < [witSpec].length) (h2 : i < rs.length),
          [witSpec].get ⟨i, h⟩ = witSpec →
          rs.get ⟨i, h2⟩ = alwaysFailAttempt witSpec ((30 : ℚ) * 2) :=
  retry_policy_spec alwaysFailAttempt (fun _ => none) (fun _ => none) 30 [witSpec] witSpec
    (List.pairwise_singleton _ _) (List.mem_singleton_self _) rfl rfl

/-- C9: under `ABORT`, when some non-cached frame fails to compile,
`compile_frames` raises a `CompilationError` naming a failing frame and
its diagnostic text, and returns no result list at all. -/
theorem abort_policy_spec (attempt : FrameSpec → ℚ → FrameResult)
    (getPdf : String → Option String) (getBbox : String → Option BoundingBox)
    (timeout : ℚ) (specs : List FrameSpec)
    (hfail : ∃ s ∈ specs,
        getPdf s.content_hash = none ∧ (attempt s timeout).success = false) :
    ∃ s ∈ specs, getPdf s.content_hash = none ∧ (attempt s timeout).success = false
      ∧ compile_frames attempt getPdf getBbox ErrorPolicy.ABORT timeout specs
          = Except.error ("Frame " ++ toString s.index ++ " failed to compile:\n"
              ++ (attempt s timeout).error_message) := by
  obtain ⟨s0, hs0, hnc0, hf0⟩ := hfail
  have hmemfa : (s0, attempt s0 timeout) ∈ firstAttempts attempt getPdf timeout specs := by
    unfold firstAttempts
    refine List.mem_map.mpr ⟨s0, ?_, rfl⟩
    unfold toCompile
    rw [List.mem_filter]
    exact ⟨hs0, by rw [hnc0]; rfl⟩
  rcases hfind : (firstAttempts attempt getPdf timeout specs).find? (fun p => !p.2.success)
    with _ | p
  · exfalso
    rw [List.find?_eq_none] at hfind
    have := hfind (s0, attempt s0 timeout) hmemfa
    rw [hf0] at this
    simp at this
  · have hpred := List.find?_some hfind
    have hpm : p ∈ firstAttempts attempt getPdf timeout specs :=
      List.mem_of_find?_eq_some hfind
    unfold firstAttempts at hpm
    obtain ⟨s, hs, rfl⟩ := List.mem_map.mp hpm
    unfold toCompile at hs
    rw [List.mem_filter] at hs
    have hncs : getPdf s.content_hash = none := Option.isNone_iff_eq_none.mp hs.2
    have hfs : (attempt s timeout).success = false := by
      simpa using hpred
    refine ⟨s, hs.1, hncs, hfs, ?_⟩
    unfold compile_frames
    rw [hfind]

/-- C9 witness: one spec, never cached, always failing. -/
theorem abort_policy_spec_witness :
    ∃ s ∈ [witSpec],
      (fun _ : String => (none : Option String)) s.content_hash = none
      ∧ (alwaysFailAttempt s (30 : ℚ)).success = false
      ∧ compile_frames alwaysFailAttempt (fun _ => none) (fun _ => none)
          ErrorPolicy.ABORT 30 [witSpec]
        = Except.error ("Frame " ++ toString s.index ++ " failed to compile:\n"
            ++ (alwaysFailAttempt s (30 : ℚ)).error_message) :=
  abort_policy_spec alwaysFailAttempt (fun _ => none) (fun _ => none) 30 [witSpec]
    ⟨witSpec, List.mem_singleton_self _, rfl, rfl⟩

end Tikzgif
